import Mathlib

/-!
Shallow embedding of the ssd-benchy write benchmark (src/main.rs) together
with proofs about its partitioning, summary statistics, rate limiter,
worker write loop and sample retention.  Machine integers are modelled as
Nat, the f64 quantities of the rate limiter as exact rationals, and
wall-clock instants as nanosecond counts.
-/

namespace SSDBenchy

/-- A half-open block range, modelling the Rust type Range of u64 returned by
the partition function (the field stop stands for the Rust field end, which
is a Lean keyword). -/
structure BlockRange where
  start : ℕ
  stop : ℕ
deriving DecidableEq

/-- Embeds fn partition of src/main.rs: block_size = n / participants,
begin = id * block_size, end = begin + block_size, and end is overwritten
with n for the last participant. -/
def partition (id participants n : ℕ) : BlockRange :=
  let block_size := n / participants
  let begin := id * block_size
  let stop := begin + block_size
  if id = participants - 1 then { start := begin, stop := n }
  else { start := begin, stop := stop }

/-- The finite set of block indices a range covers. -/
def BlockRange.blocks (r : BlockRange) : Finset ℕ := Finset.Ico r.start r.stop

lemma partition_start (i N M : ℕ) : (partition i N M).start = i * (M / N) := by
  unfold partition
  split <;> rfl

lemma partition_stop_last (N M : ℕ) : (partition (N - 1) N M).stop = M := by
  unfold partition
  simp

lemma partition_stop_nonlast (i N M : ℕ) (h : i ≠ N - 1) :
    (partition i N M).stop = i * (M / N) + M / N := by
  unfold partition
  simp [h]

lemma partition_mem (k N M x : ℕ) :
    x ∈ (partition k N M).blocks ↔
      (partition k N M).start ≤ x ∧ x < (partition k N M).stop := by
  simp [BlockRange.blocks, Finset.mem_Ico]

lemma partition_biUnion (N M : ℕ) (hN : 1 ≤ N) :
    (Finset.range N).biUnion (fun k => (partition k N M).blocks) =
      Finset.Ico 0 M := by
  ext x
  simp only [Finset.mem_biUnion, Finset.mem_range, BlockRange.blocks,
    Finset.mem_Ico, Nat.zero_le, true_and]
  constructor
  · rintro ⟨k, hk, hx1, hx2⟩
    by_cases hlast : k = N - 1
    · rw [hlast] at hx2
      have := partition_stop_last N M
      omega
    · have hstop := partition_stop_nonlast k N M hlast
      rw [hstop] at hx2
      have h1 : x < (k + 1) * (M / N) := by
        have : k * (M / N) + M / N = (k + 1) * (M / N) := by ring
        omega
      have h2 : (k + 1) * (M / N) ≤ N * (M / N) :=
        mul_le_mul_right' (by omega) (M / N)
      have h3 : M / N * N ≤ M := Nat.div_mul_le_self M N
      have h4 : N * (M / N) = M / N * N := by ring
      omega
  · intro hxM
    by_cases hb0 : M / N = 0
    · refine ⟨N - 1, by omega, ?_, ?_⟩
      · rw [partition_start, hb0]
        omega
      · rw [partition_stop_last]
        exact hxM
    · by_cases hq : x / (M / N) < N - 1
      · refine ⟨x / (M / N), by omega, ?_, ?_⟩
        · rw [partition_start]
          exact Nat.div_mul_le_self x (M / N)
        · rw [partition_stop_nonlast _ _ _ (by omega)]
          have h1 := Nat.div_add_mod x (M / N)
          have h2 : x % (M / N) < M / N := Nat.mod_lt _ (Nat.pos_of_ne_zero hb0)
          rw [mul_comm]
          linarith [h1, h2]
      · refine ⟨N - 1, by omega, ?_, ?_⟩
        · rw [partition_start]
          have h1 : (N - 1) * (M / N) ≤ x / (M / N) * (M / N) :=
            mul_le_mul_right' (by omega) (M / N)
          have h2 : x / (M / N) * (M / N) ≤ x := Nat.div_mul_le_self x (M / N)
          omega
        · rw [partition_stop_last]
          exact hxM

lemma partition_ordered (a c N M : ℕ) (hac : a < c) (hcN : c < N) :
    (partition a N M).stop ≤ (partition c N M).start := by
  have haN : a ≠ N - 1 := by omega
  rw [partition_stop_nonlast a N M haN, partition_start]
  have h1 : (a + 1) * (M / N) ≤ c * (M / N) := mul_le_mul_right' (by omega) _
  have h2 : a * (M / N) + M / N = (a + 1) * (M / N) := by ring
  omega

lemma partition_disjoint (N M i j : ℕ) (hi : i < N) (hj : j < N) (hij : i ≠ j) :
    (partition i N M).blocks ∩ (partition j N M).blocks = ∅ := by
  have key : ∀ a c, a < c → c < N →
      (partition a N M).blocks ∩ (partition c N M).blocks = ∅ := by
    intro a c hac hcN
    have hle := partition_ordered a c N M hac hcN
    ext x
    simp only [Finset.mem_inter, BlockRange.blocks, Finset.mem_Ico,
      Finset.not_mem_empty, iff_false, not_and]
    intro h1 h2 h3
    omega
  rcases Nat.lt_or_ge i j with h | h
  · exact key i j h hj
  · have hji : j < i := by omega
    rw [Finset.inter_comm]
    exact key j i hji hi

/-- Claim C1: for every worker count N at least 1, total block count M and
worker ids i and j below N, partition gives worker i the half-open range
starting at i * (M div N); a non-last worker gets length M div N and the
last worker ends at M; distinct ranges are disjoint, and the union of the
N ranges is exactly the interval from 0 to M. -/
theorem partition_correct (N M i j : ℕ) (hN : 1 ≤ N) (hi : i < N) (hj : j < N)
    (hij : i ≠ j) :
    (partition i N M).start = i * (M / N) ∧
    (i ≠ N - 1 → (partition i N M).stop = i * (M / N) + M / N ∧
      (partition i N M).blocks.card = M / N) ∧
    (partition (N - 1) N M).stop = M ∧
    (partition i N M).blocks ∩ (partition j N M).blocks = ∅ ∧
    (Finset.range N).biUnion (fun k => (partition k N M).blocks) =
      Finset.Ico 0 M := by
  refine ⟨partition_start i N M, ?_, partition_stop_last N M,
    partition_disjoint N M i j hi hj hij, partition_biUnion N M hN⟩
  intro hlast
  refine ⟨partition_stop_nonlast i N M hlast, ?_⟩
  simp only [BlockRange.blocks, Nat.card_Ico,
    partition_stop_nonlast i N M hlast, partition_start]
  exact Nat.add_sub_cancel_left (i * (M / N)) (M / N)

/-- Concrete instance of claim C1 at N = 2 workers and M = 5 blocks. -/
theorem partition_correct_witness :
    (partition 0 2 5).start = 0 * (5 / 2) ∧
    (0 ≠ 2 - 1 → (partition 0 2 5).stop = 0 * (5 / 2) + 5 / 2 ∧
      (partition 0 2 5).blocks.card = 5 / 2) ∧
    (partition (2 - 1) 2 5).stop = 5 ∧
    (partition 0 2 5).blocks ∩ (partition 1 2 5).blocks = ∅ ∧
    (Finset.range 2).biUnion (fun k => (partition k 2 5).blocks) =
      Finset.Ico 0 5 :=
  partition_correct 2 5 0 1 (by decide) (by decide) (by decide) (by decide)

/-- Embeds struct Sample of src/main.rs: a retained latency measurement
tagged with the operation counter (id) and the run identifier (uuid). -/
structure Sample where
  latency : ℕ
  id : ℕ
  uuid : ℕ
deriving DecidableEq

/-- Embeds struct SummaryStatistics of src/main.rs. -/
structure SummaryStatistics where
  min : ℕ
  max : ℕ
  p50th : ℕ
  p75th : ℕ
  p90th : ℕ
  p99th : ℕ
  p999th : ℕ
deriving DecidableEq

/-- The zero-based index computed by SummaryStatistics::percentile:
ceil(len * percentile / 100) minus one, with the f64 arithmetic modelled by
exact rationals and the usize cast by Int.toNat. -/
def percentileIndex (len : ℕ) (percentile : ℚ) : ℕ :=
  (⌈(len : ℚ) * percentile / 100⌉).toNat - 1

/-- Embeds fn SummaryStatistics::percentile of src/main.rs: index into the
sorted slice at the percentile index (out-of-range access, which the Rust
code would turn into a panic and which never happens for the percentiles
used, is mapped to a default sample). -/
def percentile (samples : List Sample) (p : ℚ) : Sample :=
  samples.getD (percentileIndex samples.length p) { latency := 0, id := 0, uuid := 0 }

/-- The sort performed by samples.sort_by_key on the latency field,
modelled by the stable insertion sort on the same key. -/
def sortByLatency (samples : List Sample) : List Sample :=
  List.insertionSort (fun a b => a.latency ≤ b.latency) samples

/-- The statistics record built by create_from_sample after sorting:
min and max come from the first and last element (a None, which the Rust
code turns into a panic via expect, yields no record), the percentile
fields from SummaryStatistics::percentile at 50, 75, 90, 99 and 99.9. -/
def statsOf (sorted : List Sample) : Option SummaryStatistics :=
  match sorted.head? with
  | none => none
  | some first =>
    match sorted.getLast? with
    | none => none
    | some last =>
      some { min := first.latency
             max := last.latency
             p50th := (percentile sorted 50).latency
             p75th := (percentile sorted 75).latency
             p90th := (percentile sorted 90).latency
             p99th := (percentile sorted 99).latency
             p999th := (percentile sorted (99.9 : ℚ)).latency }

/-- Embeds fn SummaryStatistics::create_from_sample of src/main.rs: sort the
samples by latency, then extract min, max and the reported percentiles; the
panic on an empty slice is modelled as None. -/
def create_from_sample (samples : List Sample) : Option SummaryStatistics :=
  statsOf (sortByLatency samples)

/-- The latency list 1, 2, ..., 10 from the percentile-correctness example,
as a sample list. -/
def tenSamples : List Sample :=
  (List.range 10).map (fun i => { latency := i + 1, id := i, uuid := 0 })

instance : IsTotal Sample (fun a b => a.latency ≤ b.latency) :=
  ⟨fun a b => Nat.le_total a.latency b.latency⟩

instance : IsTrans Sample (fun a b => a.latency ≤ b.latency) :=
  ⟨fun _ _ _ hab hbc => Nat.le_trans hab hbc⟩

lemma percentileIndex_eval (len : ℕ) (p : ℚ) (n m : ℕ) (hm : n - 1 = m)
    (h1 : (n : ℚ) - 1 < (len : ℚ) * p / 100) (h2 : (len : ℚ) * p / 100 ≤ (n : ℚ)) :
    percentileIndex len p = m := by
  unfold percentileIndex
  have hceil : ⌈(len : ℚ) * p / 100⌉ = (n : ℤ) := by
    rw [Int.ceil_eq_iff]
    refine ⟨?_, ?_⟩ <;> push_cast <;> [exact h1; exact h2]
  rw [hceil, Int.toNat_natCast, hm]

lemma statsOf_cons (a : Sample) (t : List Sample) :
    statsOf (a :: t) = some
      { min := a.latency
        max := ((a :: t).getLast (List.cons_ne_nil a t)).latency
        p50th := (percentile (a :: t) 50).latency
        p75th := (percentile (a :: t) 75).latency
        p90th := (percentile (a :: t) 90).latency
        p99th := (percentile (a :: t) 99).latency
        p999th := (percentile (a :: t) (99.9 : ℚ)).latency } := by
  unfold statsOf
  rw [List.getLast?_eq_getLast_of_ne_nil (List.cons_ne_nil a t)]
  rfl

lemma sortByLatency_perm (samples : List Sample) :
    (sortByLatency samples).Perm samples := by
  unfold sortByLatency
  exact List.perm_insertionSort _ samples

lemma sortByLatency_sorted (samples : List Sample) :
    List.Sorted (fun a b => a.latency ≤ b.latency) (sortByLatency samples) := by
  unfold sortByLatency
  exact List.sorted_insertionSort _ samples

lemma sortByLatency_ne_nil (samples : List Sample) (h : samples ≠ []) :
    sortByLatency samples ≠ [] := by
  intro he
  apply h
  have hlen := (sortByLatency_perm samples).length_eq
  rw [he] at hlen
  exact List.length_eq_zero.mp hlen.symm

lemma latency_getLast? (l : List Sample) :
    (l.map Sample.latency).getLast? = l.getLast?.map Sample.latency := by
  induction l with
  | nil => rfl
  | cons a t ih =>
    cases t with
    | nil => rfl
    | cons b u => simpa [List.getLast?_cons_cons] using ih

lemma latency_getD (l : List Sample) (n : ℕ) :
    (l.getD n { latency := 0, id := 0, uuid := 0 }).latency =
      (l.map Sample.latency).getD n 0 := by
  induction l generalizing n with
  | nil => cases n <;> rfl
  | cons a t ih =>
    cases n with
    | zero => rfl
    | succ m => simpa [List.getD_cons_succ] using ih m

lemma statsOf_congr (s t : List Sample)
    (h : s.map Sample.latency = t.map Sample.latency) : statsOf s = statsOf t := by
  have hlen : s.length = t.length := by
    have h2 := congrArg List.length h
    simpa using h2
  cases s with
  | nil =>
    cases t with
    | nil => rfl
    | cons b v => simp at hlen
  | cons a u =>
    cases t with
    | nil => simp at hlen
    | cons b v =>
      have hhead : a.latency = b.latency := by
        have h2 := h
        simp only [List.map_cons, List.cons.injEq] at h2
        exact h2.1
      have hlast : ((a :: u).getLast (List.cons_ne_nil a u)).latency =
          ((b :: v).getLast (List.cons_ne_nil b v)).latency := by
        have h2 : ((a :: u : List Sample).map Sample.latency).getLast? =
            ((b :: v : List Sample).map Sample.latency).getLast? := by rw [h]
        rw [latency_getLast?, latency_getLast?,
          List.getLast?_eq_getLast_of_ne_nil (List.cons_ne_nil a u),
          List.getLast?_eq_getLast_of_ne_nil (List.cons_ne_nil b v)] at h2
        simpa using h2
      have hper : ∀ p : ℚ, (percentile (a :: u) p).latency =
          (percentile (b :: v) p).latency := by
        intro p
        unfold percentile
        rw [latency_getD, latency_getD, h, hlen]
      rw [statsOf_cons, statsOf_cons, hhead, hlast, hper 50, hper 75, hper 90,
        hper 99, hper (99.9 : ℚ)]

/-- Claim C2: for a non-empty sample list, create_from_sample sorts the
samples ascending by latency, takes min and max from the first and last
sorted latencies, and fills each reported percentile p from the sorted list
at the one-indexed rank given by the ceiling of len times p over 100; in
particular for latencies 1 to 10 it reports min 1, max 10, p50 5 and
p99 10. -/
theorem create_from_sample_spec (samples : List Sample) (h : samples ≠ []) :
    List.Sorted (fun a b => a.latency ≤ b.latency) (sortByLatency samples) ∧
    (sortByLatency samples).Perm samples ∧
    create_from_sample samples = some
      { min := ((sortByLatency samples).headD { latency := 0, id := 0, uuid := 0 }).latency
        max := ((sortByLatency samples).getLastD { latency := 0, id := 0, uuid := 0 }).latency
        p50th := ((sortByLatency samples).getD (percentileIndex samples.length 50)
          { latency := 0, id := 0, uuid := 0 }).latency
        p75th := ((sortByLatency samples).getD (percentileIndex samples.length 75)
          { latency := 0, id := 0, uuid := 0 }).latency
        p90th := ((sortByLatency samples).getD (percentileIndex samples.length 90)
          { latency := 0, id := 0, uuid := 0 }).latency
        p99th := ((sortByLatency samples).getD (percentileIndex samples.length 99)
          { latency := 0, id := 0, uuid := 0 }).latency
        p999th := ((sortByLatency samples).getD (percentileIndex samples.length (99.9 : ℚ))
          { latency := 0, id := 0, uuid := 0 }).latency } ∧
    create_from_sample tenSamples = some
      { min := 1, max := 10, p50th := 5, p75th := 8, p90th := 9,
        p99th := 10, p999th := 10 } := by
  refine ⟨sortByLatency_sorted samples, sortByLatency_perm samples, ?_, ?_⟩
  · obtain ⟨a, t, hat⟩ := List.exists_cons_of_ne_nil (sortByLatency_ne_nil samples h)
    have hlen : samples.length = (a :: t).length := by
      rw [← hat]
      exact (sortByLatency_perm samples).length_eq.symm
    show statsOf (sortByLatency samples) = _
    rw [hat, hlen, statsOf_cons]
    rw [List.getLastD_eq_getLast?,
      List.getLast?_eq_getLast_of_ne_nil (List.cons_ne_nil a t)]
    rfl
  · have h50 : percentileIndex 10 50 = 4 :=
      percentileIndex_eval 10 50 5 4 rfl (by norm_num) (by norm_num)
    have h75 : percentileIndex 10 75 = 7 :=
      percentileIndex_eval 10 75 8 7 rfl (by norm_num) (by norm_num)
    have h90 : percentileIndex 10 90 = 8 :=
      percentileIndex_eval 10 90 9 8 rfl (by norm_num) (by norm_num)
    have h99 : percentileIndex 10 99 = 9 :=
      percentileIndex_eval 10 99 10 9 rfl (by norm_num) (by norm_num)
    have h999 : percentileIndex 10 (99.9 : ℚ) = 9 :=
      percentileIndex_eval 10 (99.9 : ℚ) 10 9 rfl (by norm_num) (by norm_num)
    have hsort : sortByLatency tenSamples =
        [{ latency := 1, id := 0, uuid := 0 }, { latency := 2, id := 1, uuid := 0 },
         { latency := 3, id := 2, uuid := 0 }, { latency := 4, id := 3, uuid := 0 },
         { latency := 5, id := 4, uuid := 0 }, { latency := 6, id := 5, uuid := 0 },
         { latency := 7, id := 6, uuid := 0 }, { latency := 8, id := 7, uuid := 0 },
         { latency := 9, id := 8, uuid := 0 }, { latency := 10, id := 9, uuid := 0 }] := by
      decide
    show statsOf (sortByLatency tenSamples) = _
    rw [hsort, statsOf_cons]
    simp only [percentile]
    rw [show ([{ latency := 1, id := 0, uuid := 0 }, { latency := 2, id := 1, uuid := 0 },
         { latency := 3, id := 2, uuid := 0 }, { latency := 4, id := 3, uuid := 0 },
         { latency := 5, id := 4, uuid := 0 }, { latency := 6, id := 5, uuid := 0 },
         { latency := 7, id := 6, uuid := 0 }, { latency := 8, id := 7, uuid := 0 },
         { latency := 9, id := 8, uuid := 0 },
         { latency := 10, id := 9, uuid := 0 }] : List Sample).length = 10 from rfl,
      h50, h75, h90, h99, h999]
    decide

/-- Witness for claim C2 at the ten-sample list. -/
theorem create_from_sample_spec_witness :
    tenSamples ≠ [] ∧
    create_from_sample tenSamples = some
      { min := 1, max := 10, p50th := 5, p75th := 8, p90th := 9,
        p99th := 10, p999th := 10 } :=
  ⟨by decide, (create_from_sample_spec tenSamples (by decide)).2.2.2⟩

/-- Claim C7: statistics over an empty sample set are a fault, modelled as
None, while every non-empty sample list yields a fully populated record. -/
theorem create_from_sample_empty_fault (samples : List Sample) (h : samples ≠ []) :
    create_from_sample [] = none ∧ ∃ st, create_from_sample samples = some st := by
  refine ⟨rfl, ?_⟩
  obtain ⟨a, t, hat⟩ := List.exists_cons_of_ne_nil (sortByLatency_ne_nil samples h)
  refine ⟨{ min := a.latency
            max := ((a :: t).getLast (List.cons_ne_nil a t)).latency
            p50th := (percentile (a :: t) 50).latency
            p75th := (percentile (a :: t) 75).latency
            p90th := (percentile (a :: t) 90).latency
            p99th := (percentile (a :: t) 99).latency
            p999th := (percentile (a :: t) (99.9 : ℚ)).latency }, ?_⟩
  show statsOf (sortByLatency samples) = _
  rw [hat]
  exact statsOf_cons a t

/-- Witness for claim C7 at a one-sample list. -/
theorem create_from_sample_empty_fault_witness :
    create_from_sample [] = none ∧
    ∃ st, create_from_sample [{ latency := 5, id := 0, uuid := 0 }] = some st :=
  create_from_sample_empty_fault [{ latency := 5, id := 0, uuid := 0 }] (by decide)

/-- Claim C8: for a non-empty sample list, create_from_sample is invariant
under permutation of the input, so the result depends only on the multiset
of latency values. -/
theorem create_from_sample_perm_invariant (l1 l2 : List Sample) (_hne : l1 ≠ [])
    (hp : l1.Perm l2) : create_from_sample l1 = create_from_sample l2 := by
  have hm1 : List.Sorted (fun x y : ℕ => x ≤ y) ((sortByLatency l1).map Sample.latency) :=
    List.Pairwise.map Sample.latency (fun a b hab => hab) (sortByLatency_sorted l1)
  have hm2 : List.Sorted (fun x y : ℕ => x ≤ y) ((sortByLatency l2).map Sample.latency) :=
    List.Pairwise.map Sample.latency (fun a b hab => hab) (sortByLatency_sorted l2)
  have hperm : ((sortByLatency l1).map Sample.latency).Perm
      ((sortByLatency l2).map Sample.latency) :=
    (((sortByLatency_perm l1).map Sample.latency).trans
      (hp.map Sample.latency)).trans ((sortByLatency_perm l2).map Sample.latency).symm
  have heq : (sortByLatency l1).map Sample.latency =
      (sortByLatency l2).map Sample.latency :=
    List.eq_of_perm_of_sorted hperm hm1 hm2
  show statsOf (sortByLatency l1) = statsOf (sortByLatency l2)
  exact statsOf_congr _ _ heq

/-- Witness for claim C8 at a two-sample list and its reversal. -/
theorem create_from_sample_perm_invariant_witness :
    create_from_sample [{ latency := 2, id := 0, uuid := 0 }, { latency := 1, id := 1, uuid := 0 }] =
      create_from_sample [{ latency := 1, id := 1, uuid := 0 }, { latency := 2, id := 0, uuid := 0 }] :=
  create_from_sample_perm_invariant
    [{ latency := 2, id := 0, uuid := 0 }, { latency := 1, id := 1, uuid := 0 }]
    [{ latency := 1, id := 1, uuid := 0 }, { latency := 2, id := 0, uuid := 0 }]
    (by decide) (by decide)

/-- Models the Rust cast from f64 to u64 applied to the rational model of an
f64 value: truncation toward zero, saturating at zero for negative values
(for the nonnegative values arising here this is the floor). -/
def ratAsU64 (q : ℚ) : ℕ := (⌊q⌋).toNat

/-- Embeds struct RateLimiter of src/main.rs: the inter-arrival time is the
f64 field in microseconds, modelled as an exact rational; next_time is the
Instant of the next scheduled operation, modelled as nanoseconds. -/
structure RateLimiter where
  inter_arrival_time : ℚ
  next_time : ℕ
deriving DecidableEq

/-- The per-thread rate computed in RateLimiter::new: rate / threads. -/
def ratePerThread (rate : ℚ) (threads : ℕ) : ℚ := rate / threads

/-- The inter-arrival time in microseconds computed in RateLimiter::new:
1e6 / rate_per_thread. -/
def interArrivalTime (rate : ℚ) (threads : ℕ) : ℚ :=
  1000000 / ratePerThread rate threads

/-- The initial stagger offset computed in RateLimiter::new:
(inter_arrival_time / threads) * thread_id, overwritten with 0 when the
spiky flag requests simultaneous starts. -/
def staggerOffset (rate : ℚ) (threads thread_id : ℕ) (spiky : Bool) : ℚ :=
  if spiky then 0 else interArrivalTime rate threads / threads * thread_id

/-- Embeds fn RateLimiter::new of src/main.rs: next_time is now plus
Duration::from_micros(offset as u64 + inter_arrival_time as u64), with the
construction-time Instant::now() passed in as now (nanoseconds). -/
def RateLimiter.new (rate : ℚ) (threads thread_id : ℕ) (spiky : Bool) (now : ℕ) :
    RateLimiter :=
  { inter_arrival_time := interArrivalTime rate threads
    next_time := now + 1000 * (ratAsU64 (staggerOffset rate threads thread_id spiky) +
      ratAsU64 (interArrivalTime rate threads)) }

/-- Embeds fn RateLimiter::run of src/main.rs: advance next_time by
Duration::from_micros(inter_arrival_time as u64); compute
diff = (Instant::now() - next_time).as_nanos(), a saturating subtraction;
busy-wait; run the action, whose measured duration is the parameter elapsed;
add diff to the reported latency when diff > 0.  The Instant::now() read for
diff is passed in as now; the returned pair is the updated limiter state and
the latency handed to the sampling closure. -/
def RateLimiter.run (rl : RateLimiter) (now elapsed : ℕ) : RateLimiter × ℕ :=
  let next := rl.next_time + 1000 * ratAsU64 rl.inter_arrival_time
  let diff : ℕ := now - next
  let latency := if 0 < diff then elapsed + diff else elapsed
  ({ inter_arrival_time := rl.inter_arrival_time, next_time := next }, latency)

/-- Claim C3: RateLimiter.run first advances the deadline, and the latency
reported to the sampling callback equals the measured action duration plus
the positive part of the drift now minus the advanced deadline; when the
drift is not positive the reported latency is the measured duration. -/
theorem run_drift_spec (rl : RateLimiter) (now elapsed : ℕ) :
    (rl.run now elapsed).1.next_time =
      rl.next_time + 1000 * ratAsU64 rl.inter_arrival_time ∧
    (rl.run now elapsed).1.inter_arrival_time = rl.inter_arrival_time ∧
    (rl.run now elapsed).2 = elapsed +
      (max ((now : ℤ) - ((rl.next_time + 1000 * ratAsU64 rl.inter_arrival_time : ℕ) : ℤ)) 0).toNat := by
  refine ⟨rfl, rfl, ?_⟩
  show (if 0 < now - (rl.next_time + 1000 * ratAsU64 rl.inter_arrival_time) then
      elapsed + (now - (rl.next_time + 1000 * ratAsU64 rl.inter_arrival_time))
    else elapsed) = _
  split_ifs with hd <;> omega

/-- Claim C4 counterexample: at single-thread target rate 3, the deadline
advance of one run call is 333333000 nanoseconds, not the exact
inter-arrival interval of 10^9 / 3 nanoseconds the claim asserts. -/
theorem run_advance_counterexample :
    ¬ ((((RateLimiter.new 3 1 0 false 0).run 0 0).1.next_time : ℚ) -
        ((RateLimiter.new 3 1 0 false 0).next_time : ℚ) =
      1000 * ((1000000 : ℚ) / 3)) := by
  intro hcontra
  have h1 : ((RateLimiter.new 3 1 0 false 0).run 0 0).1.next_time = 666666000 := by
    norm_num [RateLimiter.new, RateLimiter.run, interArrivalTime, ratePerThread,
      staggerOffset, ratAsU64, show Int.toNat 333333 = 333333 from rfl]
  have h2 : (RateLimiter.new 3 1 0 false 0).next_time = 333333000 := by
    norm_num [RateLimiter.new, interArrivalTime, ratePerThread,
      staggerOffset, ratAsU64, show Int.toNat 333333 = 333333 from rfl]
  rw [h1, h2] at hcontra
  norm_num at hcontra

/-- Claim C4 as amended: each run call advances next_time by exactly
floor(1e6 / R) whole microseconds, the truncation to u64 of the f64
inter-arrival interval 1e6 / R; the advance equals the exact interval only
when that interval is a whole number of microseconds. -/
theorem run_advance_amended (rate : ℚ) (_hR : 0 < rate) (now0 now elapsed : ℕ) :
    (RateLimiter.new rate 1 0 false now0).inter_arrival_time = 1000000 / rate ∧
    ((RateLimiter.new rate 1 0 false now0).run now elapsed).1.next_time =
      (RateLimiter.new rate 1 0 false now0).next_time +
        1000 * (⌊(1000000 : ℚ) / rate⌋).toNat := by
  have hia : interArrivalTime rate 1 = 1000000 / rate := by
    unfold interArrivalTime ratePerThread
    norm_num
  constructor
  · show interArrivalTime rate 1 = 1000000 / rate
    exact hia
  · show (RateLimiter.new rate 1 0 false now0).next_time +
        1000 * ratAsU64 (RateLimiter.new rate 1 0 false now0).inter_arrival_time = _
    have : (RateLimiter.new rate 1 0 false now0).inter_arrival_time =
        interArrivalTime rate 1 := rfl
    rw [this, hia]
    rfl

/-- Witness for the amended claim C4 at rate 1000: the advance is exactly
1000 microseconds. -/
theorem run_advance_amended_witness :
    (RateLimiter.new 1000 1 0 false 0).inter_arrival_time = 1000000 / 1000 ∧
    ((RateLimiter.new 1000 1 0 false 0).run 0 0).1.next_time =
      (RateLimiter.new 1000 1 0 false 0).next_time +
        1000 * (⌊(1000000 : ℚ) / 1000⌋).toNat :=
  run_advance_amended 1000 (by norm_num) 0 0 0

/-- Claim C5: with the spiky flag the initial stagger offset is zero for
every thread; with staggering enabled the offset is the inter-arrival time
divided by the thread count times the thread id, so offsets strictly
increase with the thread id and stay below one inter-arrival interval. -/
theorem stagger_spec (rate : ℚ) (N i j : ℕ) (hR : 0 < rate) (hij : i < j)
    (hjN : j < N) :
    staggerOffset rate N i true = 0 ∧
    staggerOffset rate N i false = interArrivalTime rate N / N * i ∧
    staggerOffset rate N i false < staggerOffset rate N j false ∧
    staggerOffset rate N j false < interArrivalTime rate N := by
  have hN0 : 0 < (N : ℚ) := by
    have : 0 < N := by omega
    exact_mod_cast this
  have hia : 0 < interArrivalTime rate N := by
    unfold interArrivalTime ratePerThread
    have h1 : 0 < rate / (N : ℚ) := div_pos hR hN0
    exact div_pos (by norm_num) h1
  have hiaN : 0 < interArrivalTime rate N / N := div_pos hia hN0
  refine ⟨rfl, rfl, ?_, ?_⟩
  · show interArrivalTime rate N / N * i < interArrivalTime rate N / N * j
    have hij2 : (i : ℚ) < (j : ℚ) := by exact_mod_cast hij
    exact mul_lt_mul_of_pos_left hij2 hiaN
  · show interArrivalTime rate N / N * j < interArrivalTime rate N
    have hjN2 : (j : ℚ) < (N : ℚ) := by exact_mod_cast hjN
    have h1 : interArrivalTime rate N / N * j < interArrivalTime rate N / N * N :=
      mul_lt_mul_of_pos_left hjN2 hiaN
    rwa [div_mul_cancel₀ _ (ne_of_gt hN0)] at h1

/-- Witness for claim C5 at rate 1000 with 4 threads and thread ids 1 and 2. -/
theorem stagger_spec_witness :
    staggerOffset 1000 4 1 true = 0 ∧
    staggerOffset 1000 4 1 false = interArrivalTime 1000 4 / 4 * 1 ∧
    staggerOffset 1000 4 1 false < staggerOffset 1000 4 2 false ∧
    staggerOffset 1000 4 2 false < interArrivalTime 1000 4 :=
  stagger_spec 1000 4 1 2 (by norm_num) (by norm_num) (by norm_num)

/-- Embeds the retention condition of the sampling closure in main:
fastrand::u64(0..1000) <= 1, where draw is the random value. -/
def retain (draw : ℕ) : Bool := draw ≤ 1

/-- Embeds the sampling closure in main: when the draw satisfies the
retention condition, push a Sample carrying the measured latency, the
current operation counter and the run identifier onto the samples vector. -/
def sampling (uuid operations : ℕ) (samples : List Sample) (draw latency : ℕ) :
    List Sample :=
  if retain draw then
    samples ++ [{ latency := latency, id := operations, uuid := uuid }]
  else samples

/-- Embeds the worker write loop in main for a fixed number of iterations:
each iteration resets the cursor to the range start when it has reached the
range end, writes at the cursor block, runs the sampling closure on the
measured latency, then advances the cursor and the operation counter.  The
random draw and the measured latency of each operation are supplied by the
oracles draw and lat, indexed by the operation counter; the result is the
list of blocks written, the retained samples, the final cursor and the
final operation counter. -/
def workerLoop (r : BlockRange) (uuid : ℕ) (draw lat : ℕ → ℕ) :
    ℕ → ℕ → ℕ → List Sample → List ℕ × List Sample × ℕ × ℕ
  | 0, cursor, ops, samples => ([], samples, cursor, ops)
  | k + 1, cursor, ops, samples =>
      let c := if r.stop ≤ cursor then r.start else cursor
      let samples2 := sampling uuid ops samples (draw ops) (lat ops)
      let rest := workerLoop r uuid draw lat k (c + 1) (ops + 1) samples2
      (c :: rest.1, rest.2)

lemma mod_succ_eq (m L : ℕ) : (m + 1) % L = (m % L + 1) % L := by
  have hdm := Nat.div_add_mod m L
  calc (m + 1) % L = (L * (m / L) + (m % L + 1)) % L := by
        congr 1
        omega
    _ = (m % L + 1) % L := Nat.mul_add_mod _ _ _

lemma workerLoop_blocks (s e : ℕ) (h : s < e) (uuid : ℕ) (draw lat : ℕ → ℕ) :
    ∀ k c ops samples m, (if e ≤ c then s else c) = s + m % (e - s) →
      (workerLoop ⟨s, e⟩ uuid draw lat k c ops samples).1 =
        (List.range k).map (fun j => s + (m + j) % (e - s)) := by
  intro k
  induction k with
  | zero => intro c ops samples m _; rfl
  | succ n ih =>
    intro c ops samples m hm
    have hL : 0 < e - s := by omega
    have h1 : m % (e - s) < e - s := Nat.mod_lt _ hL
    have hstep : (workerLoop ⟨s, e⟩ uuid draw lat (n + 1) c ops samples).1 =
        (if e ≤ c then s else c) ::
          (workerLoop ⟨s, e⟩ uuid draw lat n ((if e ≤ c then s else c) + 1) (ops + 1)
            (sampling uuid ops samples (draw ops) (lat ops))).1 := rfl
    have hnext : (if e ≤ s + m % (e - s) + 1 then s else s + m % (e - s) + 1) =
        s + (m + 1) % (e - s) := by
      have hsucc := mod_succ_eq m (e - s)
      by_cases hw : m % (e - s) + 1 = e - s
      · rw [if_pos (by omega), hsucc, hw, Nat.mod_self]
        omega
      · have h2 : m % (e - s) + 1 < e - s := by omega
        rw [if_neg (by omega), hsucc, Nat.mod_eq_of_lt h2]
        omega
    rw [hstep, hm, ih (s + m % (e - s) + 1) (ops + 1) _ (m + 1) hnext,
      List.range_succ_eq_map, List.map_cons, List.map_map]
    have harg : (fun j => s + (m + 1 + j) % (e - s)) =
        ((fun j => s + (m + j) % (e - s)) ∘ Nat.succ) := by
      funext j
      show s + (m + 1 + j) % (e - s) = s + (m + (j + 1)) % (e - s)
      congr 2
      omega
    rw [harg]
    simp

lemma workerLoop_ops (r : BlockRange) (uuid : ℕ) (draw lat : ℕ → ℕ) :
    ∀ k c ops samples, (workerLoop r uuid draw lat k c ops samples).2.2.2 = ops + k := by
  intro k
  induction k with
  | zero => intro c ops samples; rfl
  | succ n ih =>
    intro c ops samples
    show (workerLoop r uuid draw lat n _ (ops + 1) _).2.2.2 = ops + (n + 1)
    rw [ih]
    omega

set_option maxRecDepth 8192 in
/-- Claim C6: over a non-empty range, the worker loop writes block
start + j mod (end - start) at iteration j, visiting the range cyclically
with wraparound, and the operation counter ends at the iteration count
whatever the sampling draws were; for range 100 to 110 and 25 operations
the blocks are 100..109, 100..109, 100..104 in that exact order. -/
theorem worker_wraparound (s e k uuid : ℕ) (h : s < e) (draw lat : ℕ → ℕ) :
    (workerLoop ⟨s, e⟩ uuid draw lat k s 0 []).1 =
      (List.range k).map (fun j => s + j % (e - s)) ∧
    (workerLoop ⟨s, e⟩ uuid draw lat k s 0 []).2.2.2 = k ∧
    (workerLoop ⟨100, 110⟩ uuid draw lat 25 100 0 []).1 =
      [100, 101, 102, 103, 104, 105, 106, 107, 108, 109,
       100, 101, 102, 103, 104, 105, 106, 107, 108, 109,
       100, 101, 102, 103, 104] := by
  refine ⟨?_, ?_, ?_⟩
  · have h0 : (if e ≤ s then s else s) = s + 0 % (e - s) := by
      split_ifs <;> simp
    have hb := workerLoop_blocks s e h uuid draw lat k s 0 [] 0 h0
    simpa using hb
  · have ho := workerLoop_ops ⟨s, e⟩ uuid draw lat k s 0 []
    simpa using ho
  · have h0 : (if 110 ≤ 100 then 100 else 100) = 100 + 0 % (110 - 100) := by norm_num
    have hb := workerLoop_blocks 100 110 (by norm_num) uuid draw lat 25 100 0 [] 0 h0
    rw [hb]
    decide

/-- Witness for claim C6 at the range 100 to 110 with 25 operations. -/
theorem worker_wraparound_witness :
    (workerLoop ⟨100, 110⟩ 0 (fun _ => 0) (fun _ => 0) 25 100 0 []).1 =
      (List.range 25).map (fun j => 100 + j % (110 - 100)) ∧
    (workerLoop ⟨100, 110⟩ 0 (fun _ => 0) (fun _ => 0) 25 100 0 []).2.2.2 = 25 ∧
    (workerLoop ⟨100, 110⟩ 0 (fun _ => 0) (fun _ => 0) 25 100 0 []).1 =
      [100, 101, 102, 103, 104, 105, 106, 107, 108, 109,
       100, 101, 102, 103, 104, 105, 106, 107, 108, 109,
       100, 101, 102, 103, 104] :=
  worker_wraparound 100 110 25 0 (by decide) (fun _ => 0) (fun _ => 0)

lemma workerLoop_empty_blocks (s uuid : ℕ) (draw lat : ℕ → ℕ) :
    ∀ k c ops samples, s ≤ c →
      (workerLoop ⟨s, s⟩ uuid draw lat k c ops samples).1 = List.replicate k s := by
  intro k
  induction k with
  | zero => intro c ops samples _; rfl
  | succ n ih =>
    intro c ops samples hc
    show (if s ≤ c then s else c) ::
        (workerLoop ⟨s, s⟩ uuid draw lat n ((if s ≤ c then s else c) + 1) (ops + 1)
          (sampling uuid ops samples (draw ops) (lat ops))).1 = _
    rw [if_pos hc, ih (s + 1) (ops + 1) _ (by omega)]
    rfl

/-- Claim C10: a worker whose range is empty (start equals stop, as the
partition produces for non-last workers when M is below N) still writes
block start on every iteration instead of idling, and that block lies in
the range of another worker: for N = 2 workers and M = 1 block, worker 0
gets the empty range and its start block 0 lies in the range of worker 1. -/
theorem worker_empty_range (s k uuid : ℕ) (draw lat : ℕ → ℕ) :
    (partition 0 2 1).start = (partition 0 2 1).stop ∧
    (workerLoop ⟨s, s⟩ uuid draw lat k s 0 []).1 = List.replicate k s ∧
    (workerLoop ⟨s, s⟩ uuid draw lat k s 0 []).2.2.2 = k ∧
    (partition 0 2 1).start ∈ (partition 1 2 1).blocks := by
  refine ⟨by decide, workerLoop_empty_blocks s uuid draw lat k s 0 [] (le_refl s),
    ?_, by decide⟩
  have ho := workerLoop_ops ⟨s, s⟩ uuid draw lat k s 0 []
  simpa using ho

set_option maxRecDepth 16384 in
/-- Claim C9: the retention condition holds for exactly 2 of the 1000
equiprobable outcomes of the uniform draw over 0 to 999, so a latency is
retained with probability 0.2 percent, and a retained sample is tagged with
the current operation counter and the run identifier. -/
theorem sampling_spec (uuid operations latency draw : ℕ) (samples : List Sample)
    (_hd : draw < 1000) :
    ((Finset.range 1000).filter (fun d => retain d = true)).card = 2 ∧
    (retain draw = true →
      sampling uuid operations samples draw latency =
        samples ++ [{ latency := latency, id := operations, uuid := uuid }]) ∧
    (retain draw = false → sampling uuid operations samples draw latency = samples) := by
  refine ⟨by decide, ?_, ?_⟩
  · intro hr
    unfold sampling
    simp [hr]
  · intro hr
    unfold sampling
    simp [hr]

/-- Witness for claim C9 at draw 0. -/
theorem sampling_spec_witness :
    ((Finset.range 1000).filter (fun d => retain d = true)).card = 2 ∧
    (retain 0 = true →
      sampling 7 5 [] 0 42 = [] ++ [{ latency := 42, id := 5, uuid := 7 }]) ∧
    (retain 0 = false → sampling 7 5 [] 0 42 = []) :=
  sampling_spec 7 5 42 0 [] (by decide)

end SSDBenchy
